import Mathlib

/-!
Verification of the asynchronous logging buffer of
`src/hotspot/share/logging/logAsyncFlusher.hpp`.

The header declares three components that this development embeds:

* `LinkedListDeque<E, F>` — a FIFO deque built on top of HotSpot's
  `LinkedListImpl` (a singly linked list growing at the head), with an extra
  `_tail` pointer and a `_size` counter.  The deque code (`push_back`,
  `pop_all`, `pop_front`, `size`, `front`, `back`) is in the header and is
  embedded verbatim below.  The underlying `LinkedListImpl` primitives
  (`add`, `insert_after`, `unlink_head`, `delete_node`, `move`, `_head`)
  live in `utilities/linkedlist.hpp`, which is not part of the sources;
  they are modelled from the spec as the standard singly-linked-list
  operations (`add` prepends at the head and returns the new node,
  `insert_after` splices a node after the given one, `unlink_head` detaches
  and returns the head node or null, `move` transfers the whole sequence,
  `delete_node` frees the node and the element it owns).

* `AsyncLogMessage` — a record holding a sink reference (`LogFileOutput&`),
  a decoration snapshot and an owned C string `_message` (possibly null).
  Pointers are modelled by natural-number addresses; the contents of the C
  strings are recovered through an explicit heap `Nat → List Char`, so that
  pointer comparison (`_message == o._message`) and `strcmp` are distinct
  operations, exactly as in the source.

* `LogAsyncFlusher` — the enqueue / drain state machine.  Only its
  declarations appear in the header, so the bodies of `enqueue_impl` and of
  the worker's drain are modelled from the spec (§4.2, §4.4).

The linked list is represented head-first as a Lean `List`; node pointers
(`_tail`, and the `h == _tail` comparison inside `pop_front`) are
represented by positions in that list, which is faithful because a node's
identity is its position once head removals shift every position down by
one.
-/

set_option autoImplicit false

namespace AsyncLog

/-- Embedding of `LinkedListDeque<E, F>`: `_list` is the underlying
`LinkedListImpl` sequence in head-to-tail order, `_tail` is the tail node
pointer given as a position in `_list` (`none` = `NULL`), `_size` is the
`_size` field. -/
structure LinkedListDeque (E : Type) where
  _list : List E
  _tail : Option Nat
  _size : Nat
deriving Repr, DecidableEq

namespace LinkedListDeque

variable {E : Type}

/-- The constructor `LinkedListDeque() : _tail(NULL), _size(0)` — the list
itself starts empty. -/
def empty : LinkedListDeque E := { _list := [], _tail := none, _size := 0 }

/-- `push_back(e)`: if `_tail` is null, `_tail = this->add(e)` (`add`
prepends at the head and returns the new node, at position 0); otherwise
`_tail = this->insert_after(e, _tail)` (splice after the tail node, the new
node sits one position later); then `++_size`. -/
def push_back (d : LinkedListDeque E) (e : E) : LinkedListDeque E :=
  match d._tail with
  | none =>
      { _list := e :: d._list, _tail := some 0, _size := d._size + 1 }
  | some i =>
      { _list := d._list.take (i + 1) ++ e :: d._list.drop (i + 1),
        _tail := some (i + 1),
        _size := d._size + 1 }

/-- `pop_all(logs)`: `logs->move(this)` transfers the whole sequence into
`logs` (modelled from the spec: `move` in `utilities/linkedlist.hpp` is not
part of the sources; per §4.1 it is an O(1) move of the entire internal
sequence into the output list), then `_tail = NULL; _size = 0`.  The second
component is the sequence received by `logs`. -/
def pop_all (d : LinkedListDeque E) : LinkedListDeque E × List E :=
  ({ _list := [], _tail := none, _size := 0 }, d._list)

/-- `pop_front()`: `h = unlink_head()` detaches the head node (null when
the list is empty); `if (h == _tail) _tail = NULL;` — the pointers are equal
when both are null, or when `_tail` designates the head position 0; then
`if (h != NULL) { --_size; delete_node(h); }`.  Removing the head shifts
every remaining position down by one, so a tail pointer `some (i+1)`
becomes `some i`.  The second component is the element handed to
`delete_node` (the freed node). -/
def pop_front (d : LinkedListDeque E) : LinkedListDeque E × Option E :=
  match d._list with
  | [] =>
      ({ d with _tail := if d._tail = none then none else d._tail }, none)
  | e :: rest =>
      let t : Option Nat :=
        match d._tail with
        | some 0 => none
        | some (i + 1) => some i
        | none => none
      ({ _list := rest, _tail := t, _size := d._size - 1 }, some e)

/-- `size()` returns `_size`. -/
def size (d : LinkedListDeque E) : Nat := d._size

/-- `front()`: `this->_head == NULL ? NULL : this->_head->peek()` — a
non-owning view of the head element, null when the list is empty. -/
def front (d : LinkedListDeque E) : Option E := d._list.head?

/-- `back()`: `_tail == NULL ? NULL : _tail->peek()` — a non-owning view of
the element at the tail pointer, null when `_tail` is null. -/
def back (d : LinkedListDeque E) : Option E :=
  match d._tail with
  | none => none
  | some i => d._list[i]?

/-- Representation invariant maintained by the deque: `_size` mirrors the
length of the underlying list, and `_tail` is null on an empty list or the
position of the last element otherwise. -/
def Inv (d : LinkedListDeque E) : Prop :=
  d._size = d._list.length ∧
    (d._list = [] → d._tail = none) ∧
    (d._list ≠ [] → d._tail = some (d._list.length - 1))

/-- A sequence of `push_back` calls, first element pushed first. -/
def pushAll (d : LinkedListDeque E) (xs : List E) : LinkedListDeque E :=
  xs.foldl push_back d

theorem pop_front_fst_list (d : LinkedListDeque E) :
    (d.pop_front).1._list = d._list.tail := by
  cases d with
  | mk l t s => cases l <;> rfl

/-- Draining by repeated `pop_front`, collecting the elements handed to
`delete_node`, until the deque is empty. -/
def drainFront (d : LinkedListDeque E) : List E :=
  if h : d._list.length = 0 then []
  else (d.pop_front).2.toList ++ drainFront (d.pop_front).1
termination_by d._list.length
decreasing_by
  rw [pop_front_fst_list, List.length_tail]
  exact Nat.sub_lt (Nat.pos_of_ne_zero h) Nat.one_pos

theorem drainFront_empty_list (d : LinkedListDeque E) (h : d._list = []) :
    d.drainFront = [] := by
  rw [drainFront, dif_pos (by simp [h])]

theorem drainFront_cons (d : LinkedListDeque E) (e : E) (rest : List E)
    (h : d._list = e :: rest) :
    d.drainFront = e :: (d.pop_front).1.drainFront := by
  rw [drainFront, dif_neg (by simp [h])]
  obtain ⟨l, t, s⟩ := d
  have hl : l = e :: rest := h
  subst hl
  rfl

/-- Repeated `pop_front` returns exactly the underlying list, in order. -/
theorem drainFront_eq_list (d : LinkedListDeque E) :
    d.drainFront = d._list := by
  generalize hn : d._list.length = n
  induction n generalizing d with
  | zero =>
      have h : d._list = [] := List.length_eq_zero.mp hn
      rw [drainFront_empty_list d h, h]
  | succ n ih =>
      cases he : d._list with
      | nil => rw [he] at hn; simp at hn
      | cons e rest =>
          rw [drainFront_cons d e rest he]
          have hlen : (d.pop_front).1._list.length = n := by
            rw [pop_front_fst_list, he]
            simp only [List.tail_cons]
            rw [he] at hn
            simpa using hn
          rw [ih _ hlen, pop_front_fst_list, he]
          rfl

theorem push_back_list (d : LinkedListDeque E) (e : E) (h : Inv d) :
    (d.push_back e)._list = d._list ++ [e] := by
  obtain ⟨l, t, s⟩ := d
  obtain ⟨hs, hnil, hcons⟩ := h
  cases l with
  | nil =>
      have ht : t = none := hnil rfl
      subst ht
      simp [push_back]
  | cons x xs =>
      have ht : t = some ((x :: xs).length - 1) := hcons (by simp)
      subst ht
      simp [push_back, List.take_length, List.drop_length]

theorem push_back_inv (d : LinkedListDeque E) (e : E) (h : Inv d) :
    Inv (d.push_back e) := by
  have hlist := push_back_list d e h
  obtain ⟨l, t, s⟩ := d
  obtain ⟨hs, hnil, hcons⟩ := h
  refine ⟨?_, ?_, ?_⟩
  · rw [hlist]
    cases l with
    | nil =>
        have ht : t = none := hnil rfl
        subst ht
        simp [push_back] at hs ⊢
        exact hs
    | cons x xs =>
        have ht : t = some ((x :: xs).length - 1) := hcons (by simp)
        subst ht
        simp [push_back] at hs ⊢
        exact hs
  · intro hcontra
    rw [hlist] at hcontra
    simp at hcontra
  · intro _
    rw [hlist]
    cases l with
    | nil =>
        have ht : t = none := hnil rfl
        subst ht
        simp [push_back]
    | cons x xs =>
        have ht : t = some ((x :: xs).length - 1) := hcons (by simp)
        subst ht
        simp [push_back]

theorem empty_inv : Inv (empty : LinkedListDeque E) := by
  refine ⟨rfl, fun _ => rfl, fun h => absurd rfl h⟩

theorem pushAll_list (d : LinkedListDeque E) (xs : List E) (h : Inv d) :
    (d.pushAll xs)._list = d._list ++ xs ∧ Inv (d.pushAll xs) := by
  induction xs generalizing d with
  | nil => simpa [pushAll] using h
  | cons x xs ih =>
      have hx := push_back_inv d x h
      have hxl := push_back_list d x h
      have := ih (d.push_back x) hx
      simp only [pushAll, List.foldl_cons] at *
      refine ⟨?_, this.2⟩
      rw [this.1, hxl]
      simp

theorem pop_front_inv (d : LinkedListDeque E) (h : Inv d) :
    Inv (d.pop_front).1 := by
  obtain ⟨l, t, s⟩ := d
  obtain ⟨hs, hnil, hcons⟩ := h
  cases l with
  | nil =>
      have ht : t = none := hnil rfl
      subst ht
      exact ⟨hs, hnil, hcons⟩
  | cons x xs =>
      have ht : t = some ((x :: xs).length - 1) := hcons (by simp)
      subst ht
      cases xs with
      | nil =>
          refine ⟨?_, fun _ => rfl, fun hc => absurd rfl hc⟩
          simp [pop_front] at hs ⊢
          omega
      | cons y ys =>
          refine ⟨?_, ?_, ?_⟩
          · simp [pop_front] at hs ⊢
            omega
          · intro hc; simp [pop_front] at hc
          · intro _
            simp [pop_front]

theorem pop_all_inv (d : LinkedListDeque E) : Inv (d.pop_all).1 :=
  ⟨rfl, fun _ => rfl, fun h => absurd rfl h⟩

theorem back_push_back (d : LinkedListDeque E) (e : E) (h : Inv d) :
    (d.push_back e).back = some e := by
  have hlist := push_back_list d e h
  have hinv := push_back_inv d e h
  obtain ⟨_, _, hcons⟩ := hinv
  have ht := hcons (by rw [hlist]; simp)
  rw [back, ht, hlist]
  simp

theorem back_eq_getLast (d : LinkedListDeque E) (h : Inv d)
    (hne : d._list ≠ []) : d.back = d._list.getLast? := by
  obtain ⟨hs, hnil, hcons⟩ := h
  have ht := hcons hne
  rw [back, ht, List.getLast?_eq_getElem?]

end LinkedListDeque

/-- Embedding of `AsyncLogMessage`: `_output` is the address of the
`LogFileOutput&` reference target (`&_output` comparisons compare these
addresses), `_message` is the owned `char*` given as a pointer (`none` =
`NULL`).  The string a non-null pointer holds is recovered through an
explicit heap `Nat → List Char`.  The decoration snapshot plays no role in
any claim and carries no behaviour in the header, so it is not modelled. -/
structure AsyncLogMessage where
  _output : Nat
  _message : Option Nat
deriving Repr, DecidableEq

namespace AsyncLogMessage

/-- Embedding of `AsyncLogMessage::equals`: if the `_message` pointers are
equal (including both null), the messages are equal iff the `_output`
references alias; else if either pointer is null, they are unequal; else
they are equal iff the outputs alias and `strcmp` finds the pointed-to
strings equal.  `heap` gives the string stored at each non-null pointer. -/
def equals (heap : Nat → List Char) (a o : AsyncLogMessage) : Bool :=
  if a._message = o._message then
    decide (a._output = o._output)
  else
    match a._message, o._message with
    | none, _ => false
    | _, none => false
    | some p, some q =>
        decide (a._output = o._output) && decide (heap p = heap q)

end AsyncLogMessage

/-- Embedding of the field initializer of `LogAsyncFlusher::_buffer_max_size`:
`AsyncLogBufferSize / (sizeof(AsyncLogMessage) + sizeof(LogDecorations) +
vwrite_buffer_size)`, with the C++ unsigned integer division, which is
`Nat` division.  The four quantities are compile-time or flag-provided
constants and enter as parameters. -/
def buffer_max_size (asyncLogBufferSize sizeofAsyncLogMessage
    sizeofLogDecorations vwrite_buffer_size : Nat) : Nat :=
  asyncLogBufferSize /
    (sizeofAsyncLogMessage + sizeofLogDecorations + vwrite_buffer_size)

/-- The buffer of `LogAsyncFlusher`: `typedef LinkedListDeque<AsyncLogMessage,
mtLogging> AsyncLogBuffer`. -/
abbrev AsyncLogBuffer := LinkedListDeque AsyncLogMessage

/-- The drop-accounting table `AsyncLogMap` (a `KVHashtable<LogFileOutput*,
uint32_t, mtLogging>`), given as an association list from sink address to
drop count. -/
abbrev AsyncLogMap := List (Nat × Nat)

/-- Modelled from the spec: the body of the `drop_table[sink] += 1` update
of §4.2 step 3 (`KVHashtable` is declared in `utilities/hashtable.hpp`,
which is not part of the sources) — bump the counter of `s`, inserting the
key with count 1 when it is absent. -/
def bump (stats : AsyncLogMap) (s : Nat) : AsyncLogMap :=
  match stats with
  | [] => [(s, 1)]
  | (k, v) :: rest => if k = s then (k, v + 1) :: rest else (k, v) :: bump rest s

/-- The drop count recorded for sink `s` in the table. -/
def drop_count (stats : AsyncLogMap) (s : Nat) : Nat :=
  match stats with
  | [] => 0
  | (k, v) :: rest => if k = s then v else drop_count rest s

/-- The total of all per-sink drop counts in the table. -/
def dropped_total (stats : AsyncLogMap) : Nat := (stats.map Prod.snd).sum

/-- State of `LogAsyncFlusher` as far as accounting is concerned: the
bounded buffer `_buffer`, the drop table `_stats`, together with the
history the conservation claim talks about — the records already drained
and written back, and the drop counts already snapshotted and reported. -/
structure FlusherState where
  _buffer : AsyncLogBuffer
  _stats : AsyncLogMap
  written : List AsyncLogMessage
  reported : Nat

/-- The state right after `initialize()`: empty buffer, empty table,
nothing written or reported yet. -/
def initState : FlusherState :=
  { _buffer := LinkedListDeque.empty, _stats := [], written := [], reported := 0 }

/-- Modelled from the spec: `LogAsyncFlusher::enqueue_impl` (its body is in
`logAsyncFlusher.cpp`, not part of the sources) per §4.2 — under the
monitor, if `queue.size() < capacity` construct the record and `push_back`
it, else increment `drop_table[sink]` by 1 and construct no record. -/
def enqueue_impl (cap : Nat) (st : FlusherState) (msg : AsyncLogMessage) :
    FlusherState :=
  if st._buffer.size < cap then
    { st with _buffer := st._buffer.push_back msg }
  else
    { st with _stats := bump st._stats msg._output }

/-- Modelled from the spec: one drain pass of the worker loop (the body of
`LogAsyncFlusher::run` is in `logAsyncFlusher.cpp`, not part of the
sources) per §4.4 step 1 — `pop_all` the buffer into a local list that is
then written back, and snapshot-and-clear the drop table, the snapshot
being reported. -/
def drain_pass (st : FlusherState) : FlusherState :=
  { _buffer := (st._buffer.pop_all).1,
    _stats := [],
    written := st.written ++ (st._buffer.pop_all).2,
    reported := st.reported + dropped_total st._stats }

/-- An event visible to the accounting state: a producer enqueue of one
record, or one worker drain pass. -/
inductive Event where
  | enq (msg : AsyncLogMessage)
  | drain
deriving Repr, DecidableEq

/-- One event applied to the state. -/
def step (cap : Nat) (st : FlusherState) : Event → FlusherState
  | Event.enq msg => enqueue_impl cap st msg
  | Event.drain => drain_pass st

/-- A sequence of events applied in order. -/
def run (cap : Nat) (st : FlusherState) (es : List Event) : FlusherState :=
  es.foldl (step cap) st

/-- The number of enqueue events in a trace. -/
def enqCount (es : List Event) : Nat :=
  (es.filter fun e => match e with | Event.enq _ => true | Event.drain => false).length

/-- The conserved quantity: records admitted to the queue (still buffered
or already written back) plus all drops (still tabled or already
reported). -/
def conserve (st : FlusherState) : Nat :=
  st._buffer._list.length + st.written.length +
    dropped_total st._stats + st.reported

theorem dropped_total_bump (stats : AsyncLogMap) (s : Nat) :
    dropped_total (bump stats s) = dropped_total stats + 1 := by
  induction stats with
  | nil => rfl
  | cons kv rest ih =>
      obtain ⟨k, v⟩ := kv
      by_cases hk : k = s
      · simp [bump, hk, dropped_total]
        omega
      · simp [bump, hk, dropped_total] at ih ⊢
        omega

theorem drop_count_bump_same (stats : AsyncLogMap) (s : Nat) :
    drop_count (bump stats s) s = drop_count stats s + 1 := by
  induction stats with
  | nil => simp [bump, drop_count]
  | cons kv rest ih =>
      obtain ⟨k, v⟩ := kv
      by_cases hk : k = s
      · simp [bump, hk, drop_count]
      · simp [bump, hk, drop_count, ih]

theorem conserve_step (cap : Nat) (st : FlusherState) (e : Event)
    (hinv : st._buffer.Inv) :
    conserve (step cap st e) = conserve st + enqCount [e] ∧
      (step cap st e)._buffer.Inv := by
  cases e with
  | enq msg =>
      simp only [step, enqueue_impl]
      by_cases hlt : st._buffer.size < cap
      · rw [if_pos hlt]
        constructor
        · simp [conserve, LinkedListDeque.push_back_list st._buffer msg hinv,
            enqCount]
          omega
        · exact LinkedListDeque.push_back_inv st._buffer msg hinv
      · rw [if_neg hlt]
        constructor
        · simp [conserve, dropped_total_bump, enqCount]
          omega
        · exact hinv
  | drain =>
      refine ⟨?_, ⟨rfl, fun _ => rfl, fun h => absurd rfl h⟩⟩
      simp [step, drain_pass, conserve, LinkedListDeque.pop_all, enqCount,
        dropped_total]
      omega

theorem conserve_run (cap : Nat) (st : FlusherState) (es : List Event)
    (hinv : st._buffer.Inv) :
    conserve (run cap st es) = conserve st + enqCount es ∧
      (run cap st es)._buffer.Inv := by
  induction es generalizing st with
  | nil => exact ⟨rfl, hinv⟩
  | cons e es ih =>
      obtain ⟨h1, h2⟩ := conserve_step cap st e hinv
      obtain ⟨h3, h4⟩ := ih (step cap st e) h2
      refine ⟨?_, h4⟩
      rw [run, List.foldl_cons] at *
      rw [h3, h1]
      simp [enqCount, List.filter]
      cases e <;> simp [List.filter] <;> omega

/-- Enqueueing a batch while it keeps the occupancy below the capacity:
every record is pushed, in order, and nothing else changes. -/
theorem run_enqs_below_cap (cap : Nat) (ms : List AsyncLogMessage)
    (st : FlusherState) (hinv : st._buffer.Inv)
    (hroom : st._buffer._list.length + ms.length ≤ cap) :
    (run cap st (ms.map Event.enq))._buffer._list = st._buffer._list ++ ms ∧
      (run cap st (ms.map Event.enq))._buffer.Inv ∧
      (run cap st (ms.map Event.enq))._stats = st._stats ∧
      (run cap st (ms.map Event.enq)).written = st.written ∧
      (run cap st (ms.map Event.enq)).reported = st.reported := by
  induction ms generalizing st with
  | nil => exact ⟨by simp [run], hinv, rfl, rfl, rfl⟩
  | cons m ms ih =>
      have hsize : st._buffer.size < cap := by
        have h1 := hinv.1
        have h2 : (m :: ms).length = ms.length + 1 := rfl
        simp only [LinkedListDeque.size]
        omega
      have hstep : step cap st (Event.enq m) =
          { st with _buffer := st._buffer.push_back m } := by
        simp [step, enqueue_impl, if_pos hsize]
      have hinv2 : (st._buffer.push_back m).Inv :=
        LinkedListDeque.push_back_inv st._buffer m hinv
      have hlist2 := LinkedListDeque.push_back_list st._buffer m hinv
      have hroom2 :
          (st._buffer.push_back m)._list.length + ms.length ≤ cap := by
        rw [hlist2]
        simp at hroom ⊢
        omega
      have := ih { st with _buffer := st._buffer.push_back m } hinv2 hroom2
      simp only [List.map_cons, run, List.foldl_cons, hstep] at *
      refine ⟨?_, this.2.1, this.2.2.1, this.2.2.2.1, this.2.2.2.2⟩
      rw [this.1, hlist2]
      simp

/-- Modelled from the spec: `delete_node` (in `utilities/linkedlist.hpp`,
not part of the sources) destroys the node handed to it by `pop_front`,
which per §4.1 releases the popped record's owned message; these are the
message pointers freed when the given node is deleted. -/
def freed_message_ptrs (deleted : Option AsyncLogMessage) : List Nat :=
  match deleted with
  | none => []
  | some e => e._message.toList

/-- C1: with capacity `cap` and no drain, the first `cap` enqueued records
are all pushed (they sit in the buffer in order, with no drop recorded),
and the `(cap+1)`-th enqueue leaves the buffer and the written history
unchanged, increments the drop counter of its sink by exactly 1, and
constructs no record. -/
theorem claim_C1 (cap : Nat) (ms : List AsyncLogMessage)
    (m : AsyncLogMessage) (hlen : ms.length = cap) :
    (run cap initState (ms.map Event.enq))._buffer._list = ms ∧
    dropped_total (run cap initState (ms.map Event.enq))._stats = 0 ∧
    (enqueue_impl cap (run cap initState (ms.map Event.enq)) m)._buffer =
      (run cap initState (ms.map Event.enq))._buffer ∧
    (enqueue_impl cap (run cap initState (ms.map Event.enq)) m).written =
      (run cap initState (ms.map Event.enq)).written ∧
    drop_count (enqueue_impl cap (run cap initState (ms.map Event.enq)) m)._stats
        m._output =
      drop_count (run cap initState (ms.map Event.enq))._stats m._output + 1 := by
  have hroom : initState._buffer._list.length + ms.length ≤ cap := by
    simp [initState, LinkedListDeque.empty, hlen]
  obtain ⟨hlist, hinv, hstats, hwritten, hreported⟩ :=
    run_enqs_below_cap cap ms initState
      (by exact LinkedListDeque.empty_inv) hroom
  have hlist2 : (run cap initState (ms.map Event.enq))._buffer._list = ms := by
    rw [hlist]; simp [initState, LinkedListDeque.empty]
  have hfull : ¬ (run cap initState (ms.map Event.enq))._buffer.size < cap := by
    have h1 := hinv.1
    simp only [LinkedListDeque.size]
    rw [h1, hlist2, hlen]
    omega
  refine ⟨hlist2, ?_, ?_, ?_, ?_⟩
  · rw [hstats]; rfl
  · simp [enqueue_impl, if_neg hfull]
  · simp [enqueue_impl, if_neg hfull]
  · simp only [enqueue_impl, if_neg hfull, ite_false]
    exact drop_count_bump_same _ _

/-- Witness for C1: capacity 2, two admitted records, the third converted
to a drop. -/
theorem claim_C1_witness :
    (run 2 initState ([⟨0, none⟩, ⟨1, none⟩].map Event.enq))._buffer._list =
        [⟨0, none⟩, ⟨1, none⟩] ∧
    dropped_total (run 2 initState
        ([⟨0, none⟩, ⟨1, none⟩].map Event.enq))._stats = 0 ∧
    (enqueue_impl 2 (run 2 initState ([⟨0, none⟩, ⟨1, none⟩].map Event.enq))
        ⟨0, none⟩)._buffer =
      (run 2 initState ([⟨0, none⟩, ⟨1, none⟩].map Event.enq))._buffer ∧
    (enqueue_impl 2 (run 2 initState ([⟨0, none⟩, ⟨1, none⟩].map Event.enq))
        ⟨0, none⟩).written =
      (run 2 initState ([⟨0, none⟩, ⟨1, none⟩].map Event.enq)).written ∧
    drop_count (enqueue_impl 2
        (run 2 initState ([⟨0, none⟩, ⟨1, none⟩].map Event.enq))
        ⟨0, none⟩)._stats 0 =
      drop_count (run 2 initState
        ([⟨0, none⟩, ⟨1, none⟩].map Event.enq))._stats 0 + 1 :=
  claim_C1 2 [⟨0, none⟩, ⟨1, none⟩] ⟨0, none⟩ rfl

/-- C2: for every capacity and every sequence of enqueues interleaved with
any number of worker drains, the records admitted (still buffered plus
already written back) together with all drops (still in the table plus
already snapshotted and reported) add up to the number of enqueues. -/
theorem claim_C2 (cap : Nat) (es : List Event) :
    (run cap initState es)._buffer._list.length +
      (run cap initState es).written.length +
      dropped_total (run cap initState es)._stats +
      (run cap initState es).reported = enqCount es := by
  have h := conserve_run cap initState es LinkedListDeque.empty_inv
  have h0 : conserve initState = 0 := rfl
  have := h.1
  rw [h0] at this
  simpa [conserve] using this

/-- C3: the buffer is FIFO — after any sequence of `push_back` calls on an
initially empty buffer, draining by repeated `pop_front` yields exactly the
pushed records in push order, and so does a single `pop_all`. -/
theorem claim_C3 (xs : List AsyncLogMessage) :
    (LinkedListDeque.pushAll LinkedListDeque.empty xs).drainFront = xs ∧
    ((LinkedListDeque.pushAll LinkedListDeque.empty xs).pop_all).2 = xs := by
  obtain ⟨hlist, _⟩ :=
    LinkedListDeque.pushAll_list LinkedListDeque.empty xs
      LinkedListDeque.empty_inv
  have hl : (LinkedListDeque.pushAll LinkedListDeque.empty xs)._list = xs := by
    rw [hlist]; rfl
  exact ⟨by rw [LinkedListDeque.drainFront_eq_list, hl],
    by rw [LinkedListDeque.pop_all, hl]⟩

/-- C4: `pop_all` is a full move — afterwards the deque has size 0, `front`
and `back` return null, its internal list is empty, and the output list
holds exactly the elements that were in the deque, in order. -/
theorem claim_C4 (d : AsyncLogBuffer) :
    ((d.pop_all).1).size = 0 ∧
    ((d.pop_all).1).front = none ∧
    ((d.pop_all).1).back = none ∧
    ((d.pop_all).1)._list = [] ∧
    (d.pop_all).2 = d._list :=
  ⟨rfl, rfl, rfl, rfl, rfl⟩

/-- C5: on a non-empty deque, `pop_front` removes the head element,
decrements the size by one, and hands exactly the head record to
`delete_node`, which frees that record's owned message (the freed message
pointers are precisely the head record's owned pointer). -/
theorem claim_C5 (d : AsyncLogBuffer) (m : AsyncLogMessage)
    (rest : List AsyncLogMessage) (hinv : d.Inv) (h : d._list = m :: rest) :
    (d.pop_front).1._list = rest ∧
    (d.pop_front).1._size + 1 = d._size ∧
    (d.pop_front).2 = some m ∧
    freed_message_ptrs (d.pop_front).2 = m._message.toList := by
  have hs := hinv.1
  obtain ⟨l, t, s⟩ := d
  subst h
  refine ⟨rfl, ?_, rfl, rfl⟩
  simp [LinkedListDeque.pop_front] at hs ⊢
  omega

/-- Witness for C5: popping the single record of a one-element buffer. -/
theorem claim_C5_witness :
    ((⟨[⟨0, some 7⟩], some 0, 1⟩ : AsyncLogBuffer).pop_front).1._list = [] ∧
    ((⟨[⟨0, some 7⟩], some 0, 1⟩ : AsyncLogBuffer).pop_front).1._size + 1 =
      (⟨[⟨0, some 7⟩], some 0, 1⟩ : AsyncLogBuffer)._size ∧
    ((⟨[⟨0, some 7⟩], some 0, 1⟩ : AsyncLogBuffer).pop_front).2 =
      some ⟨0, some 7⟩ ∧
    freed_message_ptrs
        ((⟨[⟨0, some 7⟩], some 0, 1⟩ : AsyncLogBuffer).pop_front).2 =
      (some 7 : Option Nat).toList :=
  claim_C5 ⟨[⟨0, some 7⟩], some 0, 1⟩ ⟨0, some 7⟩ []
    ⟨rfl, fun h => List.noConfusion h, fun _ => rfl⟩ rfl

/-- C6: the buffer capacity is the truncating integer quotient of the
memory budget by the per-record footprint: `_buffer_max_size` times the
footprint does not exceed `AsyncLogBufferSize`, while one more record would
exceed it — i.e. it is the floor of the division. -/
theorem claim_C6 (a m d v : Nat) (hpos : 0 < m + d + v) :
    buffer_max_size a m d v * (m + d + v) ≤ a ∧
    a < (buffer_max_size a m d v + 1) * (m + d + v) := by
  refine ⟨Nat.div_mul_le_self a (m + d + v), ?_⟩
  exact (Nat.div_lt_iff_lt_mul hpos).mp (Nat.lt_succ_self _)

/-- Witness for C6: the default 2 MiB budget with a 600-byte footprint. -/
theorem claim_C6_witness :
    0 < 48 + 40 + 512 ∧
    (buffer_max_size 2097152 48 40 512 * (48 + 40 + 512) ≤ 2097152 ∧
      2097152 < (buffer_max_size 2097152 48 40 512 + 1) * (48 + 40 + 512)) :=
  ⟨by norm_num, claim_C6 2097152 48 40 512 (by norm_num)⟩

/-- C7: `front` and `back` are read-only peeks (in this embedding they are
pure observers that return a view and no new state): on an empty deque both
return null; on a non-empty deque `front` views the head element and `back`
the tail element. -/
theorem claim_C7 (d : AsyncLogBuffer) (hinv : d.Inv) :
    (d._list = [] → d.front = none ∧ d.back = none) ∧
    (d._list ≠ [] → d.front = d._list.head? ∧ d.back = d._list.getLast?) := by
  constructor
  · intro h
    have ht := hinv.2.1 h
    constructor
    · rw [LinkedListDeque.front, h]; rfl
    · rw [LinkedListDeque.back, ht]
  · intro h
    exact ⟨rfl, LinkedListDeque.back_eq_getLast d hinv h⟩

/-- Witness for C7: peeks on a concrete one-element buffer. -/
theorem claim_C7_witness :
    (((⟨[⟨0, some 7⟩], some 0, 1⟩ : AsyncLogBuffer)._list = [] →
        (⟨[⟨0, some 7⟩], some 0, 1⟩ : AsyncLogBuffer).front = none ∧
        (⟨[⟨0, some 7⟩], some 0, 1⟩ : AsyncLogBuffer).back = none) ∧
      ((⟨[⟨0, some 7⟩], some 0, 1⟩ : AsyncLogBuffer)._list ≠ [] →
        (⟨[⟨0, some 7⟩], some 0, 1⟩ : AsyncLogBuffer).front =
          (⟨[⟨0, some 7⟩], some 0, 1⟩ : AsyncLogBuffer)._list.head? ∧
        (⟨[⟨0, some 7⟩], some 0, 1⟩ : AsyncLogBuffer).back =
          (⟨[⟨0, some 7⟩], some 0, 1⟩ : AsyncLogBuffer)._list.getLast?)) :=
  claim_C7 ⟨[⟨0, some 7⟩], some 0, 1⟩
    ⟨rfl, fun h => List.noConfusion h, fun _ => rfl⟩

/-- C8: `pop_front` on an empty deque is a safe no-op — the pair returned
is the unchanged deque with no deleted node, the size stays 0 (no
underflow), and the deque remains empty. -/
theorem claim_C8 (d : AsyncLogBuffer) (hinv : d.Inv) (h : d._list = []) :
    d.pop_front = (d, none) ∧
    d.size = 0 ∧
    (d.pop_front).1.size = 0 ∧
    (d.pop_front).1._list = [] := by
  have ht := hinv.2.1 h
  have hs := hinv.1
  obtain ⟨l, t, s⟩ := d
  subst h
  subst ht
  simp only [List.length_nil] at hs
  subst hs
  exact ⟨rfl, rfl, rfl, rfl⟩

/-- Witness for C8: popping the freshly constructed empty buffer. -/
theorem claim_C8_witness :
    (LinkedListDeque.empty : AsyncLogBuffer).pop_front =
        (LinkedListDeque.empty, none) ∧
    (LinkedListDeque.empty : AsyncLogBuffer).size = 0 ∧
    ((LinkedListDeque.empty : AsyncLogBuffer).pop_front).1.size = 0 ∧
    ((LinkedListDeque.empty : AsyncLogBuffer).pop_front).1._list = [] :=
  claim_C8 LinkedListDeque.empty LinkedListDeque.empty_inv rfl

/-- C9: every deque operation preserves the representation invariant; under
it the tail pointer is null exactly when the size is 0, and on a nonzero
size the tail designates the most recently pushed element, so `back`
returns the last element — in particular right after a `push_back` it
returns the element just pushed. -/
theorem claim_C9 (d : AsyncLogBuffer) (e : AsyncLogMessage) (hinv : d.Inv) :
    (d.push_back e).Inv ∧
    ((d.pop_front).1).Inv ∧
    ((d.pop_all).1).Inv ∧
    (d._tail = none ↔ d.size = 0) ∧
    (d.size ≠ 0 → d.back = d._list.getLast?) ∧
    (d.push_back e).back = some e := by
  refine ⟨LinkedListDeque.push_back_inv d e hinv,
    LinkedListDeque.pop_front_inv d hinv,
    LinkedListDeque.pop_all_inv d, ?_, ?_,
    LinkedListDeque.back_push_back d e hinv⟩
  · obtain ⟨hs, hnil, hcons⟩ := hinv
    constructor
    · intro ht
      by_cases hl : d._list = []
      · simp [LinkedListDeque.size, hs, hl]
      · rw [hcons hl] at ht
        exact absurd ht (by simp)
    · intro hsz
      apply hnil
      have : d._list.length = 0 := by
        simpa [LinkedListDeque.size, hs] using hsz
      exact List.length_eq_zero.mp this
  · intro hsz
    apply LinkedListDeque.back_eq_getLast d hinv
    intro hl
    rw [LinkedListDeque.size, hinv.1, hl] at hsz
    exact hsz rfl

/-- Witness for C9: the invariant facts at the empty buffer. -/
theorem claim_C9_witness :
    ((LinkedListDeque.empty : AsyncLogBuffer).push_back ⟨0, none⟩).Inv ∧
    (((LinkedListDeque.empty : AsyncLogBuffer).pop_front).1).Inv ∧
    (((LinkedListDeque.empty : AsyncLogBuffer).pop_all).1).Inv ∧
    ((LinkedListDeque.empty : AsyncLogBuffer)._tail = none ↔
      (LinkedListDeque.empty : AsyncLogBuffer).size = 0) ∧
    ((LinkedListDeque.empty : AsyncLogBuffer).size ≠ 0 →
      (LinkedListDeque.empty : AsyncLogBuffer).back =
        (LinkedListDeque.empty : AsyncLogBuffer)._list.getLast?) ∧
    ((LinkedListDeque.empty : AsyncLogBuffer).push_back ⟨0, none⟩).back =
      some ⟨0, none⟩ :=
  claim_C9 LinkedListDeque.empty ⟨0, none⟩ LinkedListDeque.empty_inv

/-- C10: `AsyncLogMessage::equals` is total (a Boolean function defined on
all message pairs, null `_message` included), reflexive and symmetric, and
two messages whose `_message` pointers differ while one of them is null
compare unequal. -/
theorem claim_C10 :
    (∀ (heap : Nat → List Char) (a : AsyncLogMessage),
      AsyncLogMessage.equals heap a a = true) ∧
    (∀ (heap : Nat → List Char) (a b : AsyncLogMessage),
      AsyncLogMessage.equals heap a b = AsyncLogMessage.equals heap b a) ∧
    (∀ (heap : Nat → List Char) (a b : AsyncLogMessage),
      a._message ≠ b._message →
      (a._message = none ∨ b._message = none) →
      AsyncLogMessage.equals heap a b = false) := by
  refine ⟨?_, ?_, ?_⟩
  · intro heap a
    simp [AsyncLogMessage.equals]
  · intro heap a b
    obtain ⟨ao, am⟩ := a
    obtain ⟨bo, bm⟩ := b
    cases am with
    | none =>
        cases bm with
        | none => simp [AsyncLogMessage.equals, eq_comm]
        | some q => simp [AsyncLogMessage.equals]
    | some p =>
        cases bm with
        | none => simp [AsyncLogMessage.equals]
        | some q =>
            by_cases hpq : p = q
            · subst hpq
              simp [AsyncLogMessage.equals, eq_comm]
            · have h1 : (decide (ao = bo)) = (decide (bo = ao)) := by
                simp [eq_comm]
              have h2 : (decide (heap p = heap q)) = (decide (heap q = heap p)) := by
                simp [eq_comm]
              simp [AsyncLogMessage.equals, hpq, Ne.symm hpq, h1, h2]
  · intro heap a b hne hnull
    obtain ⟨ao, am⟩ := a
    obtain ⟨bo, bm⟩ := b
    cases hnull with
    | inl h =>
        simp only at h
        subst h
        cases bm with
        | none => exact absurd rfl hne
        | some q => simp [AsyncLogMessage.equals]
    | inr h =>
        simp only at h
        subst h
        cases am with
        | none => exact absurd rfl hne
        | some p => simp [AsyncLogMessage.equals]

/-- Witness for C10: a null message compared against a non-null one is
unequal. -/
theorem claim_C10_witness :
    AsyncLogMessage.equals (fun _ => []) ⟨0, none⟩ ⟨0, some 5⟩ = false :=
  claim_C10.2.2 (fun _ => []) ⟨0, none⟩ ⟨0, some 5⟩ (by decide) (Or.inl rfl)

end AsyncLog
